import Mathlib

/-!
Verification of the Tetris solver (tetris_solver.py): a shallow embedding of
the board model, placement validation, line clearing, the heuristic board
evaluator and the best-move search, together with theorems settling the
specification claims.

Grids and pieces are embedded as lists of lists of naturals (numpy int
arrays of 0/1 entries become `List (List Nat)`); the mutable solver object
becomes a `SolverState` record threaded explicitly through the operations.
-/

/-- BOARD_WIDTH constant of the source. -/
def BOARD_WIDTH : Nat := 10

/-- BOARD_HEIGHT constant of the source. -/
def BOARD_HEIGHT : Nat := 20

/-- A tetromino orientation: a small rectangular 0/1 matrix. -/
abbrev Piece := List (List Nat)

/-- The board grid: a BOARD_HEIGHT x BOARD_WIDTH 0/1 matrix. -/
abbrev Grid := List (List Nat)

/-- Number of rows of a piece (piece.shape[0]). -/
def pieceH (p : Piece) : Nat := p.length

/-- Number of columns of a piece (piece.shape[1]); for the rectangular
numpy arrays of the source every row has this length. -/
def pieceW (p : Piece) : Nat := (p.headD []).length

/-- piece[i, j] (0 outside the stored entries). -/
def pcell (p : Piece) (i j : Nat) : Nat := (p.getD i []).getD j 0

/-- grid[r, c] for nonnegative indices (0 outside the stored entries). -/
def getCell (g : Grid) (r c : Nat) : Nat := (g.getD r []).getD c 0

/-- grid[r] = row assignment: board[r][c] := v. -/
def setCell (g : Grid) (r c v : Nat) : Grid := g.set r ((g.getD r []).set c v)

/-- A well-formed grid has BOARD_HEIGHT rows of BOARD_WIDTH cells each. -/
def wfGrid (g : Grid) : Prop :=
  g.length = BOARD_HEIGHT ∧ ∀ row ∈ g, row.length = BOARD_WIDTH

instance (g : Grid) : Decidable (wfGrid g) := by
  unfold wfGrid; infer_instance

/-- np.rot90: one counterclockwise quarter turn (transpose then reverse the
rows). -/
def rot90 (p : Piece) : Piece := (List.transpose p).reverse

/-- np.rot90(p, k): k counterclockwise quarter turns. -/
def rot90pow (p : Piece) : Nat → Piece
  | 0 => p
  | k + 1 => rot90 (rot90pow p k)

/-- get_rotations of the source: the four quarter-turn rotations with exact
duplicates dropped, first-seen order. -/
def get_rotations (p : Piece) : List Piece :=
  (List.range 4).foldl (fun rots i =>
    let rotated := rot90pow p i
    if rots.any (fun r => rotated == r) then rots else rots ++ [rotated]) []

/-- BASE_TETROMINOS['I']. -/
def pieceI : Piece := [[1, 1, 1, 1]]

/-- BASE_TETROMINOS['O']. -/
def pieceO : Piece := [[1, 1], [1, 1]]

/-- BASE_TETROMINOS['T']. -/
def pieceT : Piece := [[0, 1, 0], [1, 1, 1]]

/-- BASE_TETROMINOS['L']. -/
def pieceL : Piece := [[0, 0, 1], [1, 1, 1]]

/-- BASE_TETROMINOS['J']. -/
def pieceJ : Piece := [[1, 0, 0], [1, 1, 1]]

/-- BASE_TETROMINOS['S']. -/
def pieceS : Piece := [[0, 1, 1], [1, 1, 0]]

/-- BASE_TETROMINOS['Z']. -/
def pieceZ : Piece := [[1, 1, 0], [0, 1, 1]]

/-- The solver object: the board and the cumulative game counters. -/
structure SolverState where
  board : Grid
  score : Nat
  lines_cleared : Nat
  level : Nat
deriving DecidableEq, Repr

/-- The freshly constructed solver: empty board, zero counters, level 1. -/
def initState : SolverState :=
  { board := List.replicate BOARD_HEIGHT (List.replicate BOARD_WIDTH 0)
    score := 0
    lines_cleared := 0
    level := 1 }

/-- can_place of the source for nonnegative coordinates (the form used by
every in-repo caller: the search and drop loops only pass naturals).
Bounds are checked on the piece bounding box, then every occupied piece
cell is tested against the board. -/
def can_place (g : Grid) (p : Piece) (x y : Nat) : Bool :=
  if y + pieceW p > BOARD_WIDTH then false
  else if x + pieceH p > BOARD_HEIGHT then false
  else (List.range (pieceH p)).all (fun i =>
    (List.range (pieceW p)).all (fun j =>
      if pcell p i j == 1 then !(getCell g (x + i) (y + j) == 1) else true))

/-- The grid after the write loop of place_piece (every occupied piece cell
is written as 1); identity when the placement is rejected. -/
def writeCells (g : Grid) (p : Piece) (x y : Nat) : Grid :=
  (List.range (pieceH p)).foldl (fun g1 i =>
    (List.range (pieceW p)).foldl (fun g2 j =>
      if pcell p i j == 1 then setCell g2 (x + i) (y + j) 1 else g2) g1) g

/-- The board after place_piece: unchanged when can_place rejects. -/
def placeGrid (g : Grid) (p : Piece) (x y : Nat) : Grid :=
  if can_place g p x y then writeCells g p x y else g

/-- place_piece of the source: re-validates with can_place, mutates the
board only on success, and returns the success flag. -/
def place_piece (p : Piece) (x y : Nat) (s : SolverState) : Bool × SolverState :=
  (can_place s.board p x y, { s with board := placeGrid s.board p x y })

/-- A row is full when every cell equals 1 (np.all(board == 1, axis=1)). -/
def rowFull (row : List Nat) : Bool := row.all (fun c => c == 1)

/-- An all-empty row. -/
def emptyRow : List Nat := List.replicate BOARD_WIDTH 0

/-- np.zeros_like(self.board) for the well-formed board. -/
def emptyBoard : Grid := List.replicate BOARD_HEIGHT emptyRow

/-- One step of the compaction loop of clear_lines: walking the row indices
downward (idx = BOARD_HEIGHT-1, ..., 0), each non-full row is written into
the next free slot of the fresh board, counting upward from the bottom. -/
def compactStep (row : List Nat) (st : Grid × Nat) : Grid × Nat :=
  if rowFull row then st else (st.1.set st.2 row, st.2 - 1)

/-- The compacted board built by the clear_lines loop (foldr visits the
last row first, exactly like the source's descending index loop). -/
def clearCompact (g : Grid) : Grid :=
  (g.foldr compactStep (emptyBoard, BOARD_HEIGHT - 1)).1

/-- LINE_CLEAR_POINTS table of the source (only keys 1..4 exist; the code
consults it only for 1 <= n <= 4). -/
def LINE_CLEAR_POINTS (n : Nat) : Nat :=
  match n with
  | 1 => 100
  | 2 => 300
  | 3 => 500
  | 4 => 800
  | _ => 0

/-- clear_lines of the source: counts full rows; when at least one exists,
compacts the board, bumps lines_cleared, recomputes level, and awards
points by the 1..4 table (times the new level) or the n>4 formula. -/
def clear_lines (s : SolverState) : Nat × SolverState :=
  let num_cleared := s.board.countP rowFull
  if num_cleared > 0 then
    let board1 := clearCompact s.board
    let lc := s.lines_cleared + num_cleared
    let lvl := max 1 (lc / 10 + 1)
    let pts := if 1 ≤ num_cleared ∧ num_cleared ≤ 4
      then LINE_CLEAR_POINTS num_cleared * lvl
      else 1000 * lvl * num_cleared / 4
    (num_cleared, { board := board1, score := s.score + pts, lines_cleared := lc, level := lvl })
  else (num_cleared, s)

/-- Row index of the topmost occupied cell of a column
(np.where(board[:, col] == 1)[0] taken at index 0). -/
def topOcc (g : Grid) (c : Nat) : Option Nat :=
  (List.range BOARD_HEIGHT).find? (fun r => getCell g r c == 1)

/-- Column height: BOARD_HEIGHT minus the topmost occupied row, 0 for an
empty column. -/
def colHeight (g : Grid) (c : Nat) : Nat :=
  match topOcc g c with
  | some r => BOARD_HEIGHT - r
  | none => 0

/-- Holes of one column: empty cells in the rows strictly below the topmost
occupied cell (the source's sum over range(filled[0]+1, BOARD_HEIGHT)). -/
def colHoles (g : Grid) (c : Nat) : Nat :=
  match topOcc g c with
  | some r => (List.range' (r + 1) (BOARD_HEIGHT - (r + 1))).countP
      (fun row => getCell g row c == 0)
  | none => 0

/-- evaluate_board of the source: full rows, per-column heights and holes,
bumpiness, aggregate height, combined with the literal weights. -/
def evaluate_board (g : Grid) : Int :=
  let lines_cleared := g.countP rowFull
  let column_heights := (List.range BOARD_WIDTH).map (fun c => colHeight g c)
  let holes := ((List.range BOARD_WIDTH).map (fun c => colHoles g c)).sum
  let bumpiness := ((List.range (BOARD_WIDTH - 1)).map (fun i =>
    ((column_heights.getD i 0 : Int) - (column_heights.getD (i + 1) 0 : Int)).natAbs)).sum
  let agg_height := column_heights.sum
  (lines_cleared : Int) * 500 + (4 - (lines_cleared : Int)) * (-50) +
    (holes : Int) * (-50) + (bumpiness : Int) * (-10) + (agg_height : Int) * (-1)

/-- The gravity loop of best_move with explicit fuel: while
can_place(x+1, y) holds, x increments.  BOARD_HEIGHT units of fuel always
outlast the loop, since can_place fails once x+1+height exceeds
BOARD_HEIGHT. -/
def dropGo (g : Grid) (p : Piece) (y : Nat) : Nat → Nat → Nat
  | 0, x => x
  | fuel + 1, x => if can_place g p (x + 1) y then dropGo g p y fuel (x + 1) else x

/-- The resting row found by the gravity loop started at x = 0. -/
def dropFrom (g : Grid) (p : Piece) (y : Nat) : Nat := dropGo g p y BOARD_HEIGHT 0

/-- score > best_score, where best_score starts at -np.inf: none embeds
minus infinity, exceeded by every integer. -/
def scoreGT (sc : Int) (best : Option Int) : Bool :=
  match best with
  | none => true
  | some b => sc > b

/-- One candidate step of the best_move loop body, threading the solver
state: validate at the top row, drop, back the board up, place, evaluate,
restore the board, and keep the candidate on a strictly greater score. -/
def bmBody (acc : Option (Nat × Nat × Nat) × Option Int) (st : SolverState)
    (r_idx : Nat) (p : Piece) (y : Nat) :
    (Option (Nat × Nat × Nat) × Option Int) × SolverState :=
  if can_place st.board p 0 y then
    let x := dropFrom st.board p y
    let backup := st.board
    let st1 := (place_piece p x y st).2
    let score := evaluate_board st1.board
    let st2 := { st1 with board := backup }
    (if scoreGT score acc.2 then (some (x, y, r_idx), some score) else acc, st2)
  else (acc, st)

/-- best_move of the source: every rotation in the given order, every
column from 0 to BOARD_WIDTH - piece width, candidate body as above;
returns the running best (none, none embeds (None, -inf)) together with
the solver state after the search. -/
def best_move (s : SolverState) (rots : List Piece) :
    (Option (Nat × Nat × Nat) × Option Int) × SolverState :=
  rots.enum.foldl (fun st_acc rp =>
    (List.range (BOARD_WIDTH + 1 - pieceW rp.2)).foldl (fun st_acc2 y =>
      bmBody st_acc2.1 st_acc2.2 rp.1 rp.2 y) st_acc) ((none, none), s)

/-- numpy index resolution on one axis of extent n: a nonnegative index is
taken as is, an index in [-n, 0) wraps to the end, anything else raises
IndexError (embedded as none). -/
def npIndex (n : Nat) (i : Int) : Option Nat :=
  if 0 ≤ i ∧ i < (n : Int) then some i.toNat
  else if -(n : Int) ≤ i ∧ i < 0 then some (i + n).toNat
  else none

/-- board[r, c] under full numpy indexing semantics for the
BOARD_HEIGHT x BOARD_WIDTH board: per-axis wraparound of negative
indices, IndexError (none) beyond that. -/
def getCellZ (g : Grid) (r c : Int) : Option Nat :=
  match npIndex BOARD_HEIGHT r, npIndex BOARD_WIDTH c with
  | some r0, some c0 => some (getCell g r0 c0)
  | _, _ => none

/-- Inner (column) loop of can_place over integer coordinates: the first
occupied piece cell that maps to an occupied board cell answers false, an
out-of-range board access raises (error), otherwise the scan continues. -/
def scanRow (g : Grid) (p : Piece) (x y : Int) (i : Nat) : List Nat → Except Unit Bool
  | [] => Except.ok true
  | j :: js =>
    if pcell p i j == 1 then
      match getCellZ g (x + (i : Int)) (y + (j : Int)) with
      | none => Except.error ()
      | some v => if v == 1 then Except.ok false else scanRow g p x y i js
    else scanRow g p x y i js

/-- Outer (row) loop of can_place over integer coordinates. -/
def scanRows (g : Grid) (p : Piece) (x y : Int) : List Nat → Except Unit Bool
  | [] => Except.ok true
  | i :: rest =>
    match scanRow g p x y i (List.range (pieceW p)) with
    | Except.error e => Except.error e
    | Except.ok false => Except.ok false
    | Except.ok true => scanRows g p x y rest

/-- can_place of the source over arbitrary integer coordinates, faithful
to Python semantics: the bounding-box checks test y < 0, y+width > W and
x+height > H only, after which board cells are read with numpy indexing
(negative row indices wrap around; a raised IndexError is error). -/
def canPlaceZ (g : Grid) (p : Piece) (x y : Int) : Except Unit Bool :=
  if y < 0 ∨ y + (pieceW p : Int) > (BOARD_WIDTH : Int) then Except.ok false
  else if x + (pieceH p : Int) > (BOARD_HEIGHT : Int) then Except.ok false
  else scanRows g p x y (List.range (pieceH p))

/-- Spec-side predicate: board position (r, c) is covered by an occupied
cell of the piece whose bounding box sits at (x, y). -/
def covered (p : Piece) (x y r c : Nat) : Bool :=
  (List.range (pieceH p)).any (fun i => (List.range (pieceW p)).any (fun j =>
    pcell p i j == 1 && r == x + i && c == y + j))

/-- Spec-side resting row for a column: the least x whose successor is
blocked, i.e. the largest row reachable from 0 by unit gravity steps. -/
def specRest (g : Grid) (p : Piece) (y : Nat) : Nat :=
  ((List.range (BOARD_HEIGHT + 1)).find? (fun x => ! can_place g p (x + 1) y)).getD BOARD_HEIGHT

/-- Spec-side candidate list of the move search: rotations in the given
order, columns 0..BOARD_WIDTH - width, columns blocked at the top row
skipped, each surviving candidate paired with the evaluator score of the
board after placing the piece at its resting row. -/
def candList (g : Grid) (rots : List Piece) : List ((Nat × Nat × Nat) × Int) :=
  rots.enum.flatMap (fun rp =>
    (List.range (BOARD_WIDTH + 1 - pieceW rp.2)).filterMap (fun y =>
      if can_place g rp.2 0 y then
        some ((specRest g rp.2 y, y, rp.1),
          evaluate_board (placeGrid g rp.2 (specRest g rp.2 y) y))
      else none))

/-- c scores at least as high as every list element. -/
def isBestOf {α : Type} (l : List (α × Int)) (c : α × Int) : Bool :=
  decide (∀ d ∈ l, d.2 ≤ c.2)

/-- Spec-side selection: the first list element of maximal score. -/
def specFirstMax {α : Type} (l : List (α × Int)) : Option (α × Int) :=
  l.find? (isBestOf l)

/-- Strict-improvement accumulator step over optional candidates. -/
def bestStep {α : Type} (a : Option (α × Int)) (c : α × Int) : Option (α × Int) :=
  match a with
  | none => some c
  | some b => if c.2 > b.2 then some c else some b

/-- The accumulator pair (best_move, best_score) of the source expressed
as one optional candidate. -/
def accOfOpt {α : Type} (a : Option (α × Int)) : Option α × Option Int :=
  match a with
  | none => (none, none)
  | some c => (some c.1, some c.2)

/-- The best_move loop body with the board fixed: the state restoration
makes every iteration act on the same live board. -/
def pureBody (g : Grid) (acc : Option (Nat × Nat × Nat) × Option Int)
    (r_idx : Nat) (p : Piece) (y : Nat) : Option (Nat × Nat × Nat) × Option Int :=
  if can_place g p 0 y then
    let x := dropFrom g p y
    let score := evaluate_board (placeGrid g p x y)
    if scoreGT score acc.2 then (some (x, y, r_idx), some score) else acc
  else acc

/-- Spec-side hole count of a column: empty cells that lie strictly below
the topmost occupied cell, i.e. empty cells with an occupied cell in some
earlier row. -/
def specColHoles (g : Grid) (c : Nat) : Nat :=
  ((List.range BOARD_HEIGHT).filter (fun r =>
    getCell g r c == 0 && (List.range r).any (fun r2 => getCell g r2 c == 1))).length

/-- Reference evaluator of the spec: full-row count, per-column heights,
holes by the strictly-below characterization, bumpiness, aggregate
height, combined with the literal unclamped formula. -/
def specEvaluate (g : Grid) : Int :=
  let f := g.countP rowFull
  let heights := (List.range BOARD_WIDTH).map (fun c => colHeight g c)
  let holes := ((List.range BOARD_WIDTH).map (fun c => specColHoles g c)).sum
  let bumpiness := ((List.range (BOARD_WIDTH - 1)).map (fun i =>
    ((heights.getD i 0 : Int) - (heights.getD (i + 1) 0 : Int)).natAbs)).sum
  let agg := heights.sum
  (f : Int) * 500 + (4 - (f : Int)) * (-50) + (holes : Int) * (-50) +
    (bumpiness : Int) * (-10) + (agg : Int) * (-1)

/-- Spec-side first-seen duplicate removal: an element is kept exactly
when no equal element occurs at a smaller index. -/
def dedupKeepFirst (l : List Piece) : List Piece :=
  (l.enum.filter (fun ia => (l.take ia.1).all (fun b => !(b == ia.2)))).map (fun ia => ia.2)

/-- Total number of occupied cells of a grid. -/
def countOnes (g : Grid) : Nat :=
  (g.map (fun row => row.countP (fun c => c == 1))).sum

/-!
### Claim theorems and supporting lemmas
-/

/-- C10: best_move called with an empty rotation sequence returns the
same no-move signal as an unplaceable board — (None, -infinity), embedded
as (none, none) — and leaves the board and all counters unchanged. -/
theorem best_move_empty_rotations (s : SolverState) :
    best_move s [] = ((none, none), s) := rfl

set_option maxRecDepth 10000 in
/-- C9: for every base tetromino shape, get_rotations is the 90-degree
step rotation sequence started at the unrotated shape with exact
duplicates dropped keeping first occurrences; its elements are pairwise
distinct; and the list lengths are O:1, I:2, S:2, Z:2, T:4, L:4, J:4. -/
theorem get_rotations_spec :
    (∀ p ∈ [pieceI, pieceO, pieceT, pieceL, pieceJ, pieceS, pieceZ],
      get_rotations p = dedupKeepFirst ((List.range 4).map (rot90pow p)) ∧
      (get_rotations p).Nodup) ∧
    (get_rotations pieceO).length = 1 ∧ (get_rotations pieceI).length = 2 ∧
    (get_rotations pieceS).length = 2 ∧ (get_rotations pieceZ).length = 2 ∧
    (get_rotations pieceT).length = 4 ∧ (get_rotations pieceL).length = 4 ∧
    (get_rotations pieceJ).length = 4 := by decide

set_option maxRecDepth 10000 in
/-- C1 counterexample: on the empty board the score of the move chosen by
best_move for the I-piece rotations is not -204 (the horizontal placement
at a board edge has bumpiness 1, not 0). -/
theorem best_move_I_score_ne_claim :
    (best_move initState (get_rotations pieceI)).1.2 ≠ some (-204 : Int) := by decide

set_option maxRecDepth 10000 in
/-- C1 amended: on the empty 10x20 board, best_move on the precomputed
I-piece rotations returns rotation index 0 (the horizontal 1x4
orientation, first in the rotation list) resting at row x = 19 in column
y = 0, and the evaluator score of that placement is -214
(= 4*(-50) + 1*(-10) + 4*(-1)). -/
theorem best_move_I_empty_board :
    (best_move initState (get_rotations pieceI)).1 = (some (19, 0, 0), some (-214 : Int)) ∧
    get_rotations pieceI = [[[1, 1, 1, 1]], [[1], [1], [1], [1]]] ∧
    evaluate_board (placeGrid initState.board pieceI 19 0) = -214 := by decide

/-- C3 counterexample: at x = -1 every occupied cell of the horizontal
I-piece lies outside [0, BOARD_HEIGHT), yet can_place answers True on
the empty board: the code performs no negative-x check and numpy
wraps the row index -1 around to the (empty) bottom row. -/
theorem can_place_neg_x_true :
    canPlaceZ initState.board pieceI (-1) 0 = Except.ok true ∧ (-1 : Int) < 0 :=
  ⟨rfl, by decide⟩

/-- can_place answers true exactly when the piece bounding box fits the
board and no occupied piece cell overlaps an occupied board cell. -/
theorem can_place_eq_true_iff (g : Grid) (p : Piece) (x y : Nat) :
    can_place g p x y = true ↔
      (y + pieceW p ≤ BOARD_WIDTH ∧ x + pieceH p ≤ BOARD_HEIGHT ∧
       ∀ i < pieceH p, ∀ j < pieceW p, pcell p i j = 1 → getCell g (x + i) (y + j) ≠ 1) := by
  unfold can_place
  by_cases h1 : y + pieceW p > BOARD_WIDTH
  · simp only [h1, if_true]
    constructor
    · intro h; exact absurd h (by simp)
    · intro h; omega
  · by_cases h2 : x + pieceH p > BOARD_HEIGHT
    · simp only [h1, h2, if_true, if_false]
      constructor
      · intro h; exact absurd h (by simp)
      · intro h; omega
    · simp only [h1, h2, if_false, List.all_eq_true, List.mem_range]
      constructor
      · intro hall
        refine ⟨by omega, by omega, ?_⟩
        intro i hi j hj hp
        have h3 := hall i hi j hj
        simp [hp] at h3
        exact h3
      · rintro ⟨-, -, h3⟩ i hi j hj
        by_cases hp : pcell p i j = 1
        · simp only [hp, beq_self_eq_true, if_true, Bool.not_eq_true']
          exact beq_eq_false_iff_ne.mpr (h3 i hi j hj hp)
        · simp [hp]

/-- The inner can_place scan over integer coordinates computes the same
boolean as the natural-coordinate column scan when every access is in
range. -/
theorem scanRow_eq_ok (g : Grid) (p : Piece) (x y : Int) (i : Nat)
    (hx0 : 0 ≤ x) (hy0 : 0 ≤ y) (hxi : x + (i : Int) < (BOARD_HEIGHT : Int))
    (hyW : y + (pieceW p : Int) ≤ (BOARD_WIDTH : Int)) :
    ∀ js : List Nat, (∀ j ∈ js, j < pieceW p) →
      scanRow g p x y i js = Except.ok (js.all (fun j =>
        if pcell p i j == 1 then !(getCell g (x.toNat + i) (y.toNat + j) == 1) else true)) := by
  intro js
  induction js with
  | nil => intro _; rfl
  | cons j js ih =>
    intro hmem
    have hj : j < pieceW p := hmem j (by simp)
    have hcell : getCellZ g (x + (i : Int)) (y + (j : Int)) =
        some (getCell g (x.toNat + i) (y.toNat + j)) := by
      unfold getCellZ npIndex
      have c1 : 0 ≤ x + (i : Int) ∧ x + (i : Int) < (BOARD_HEIGHT : Int) := by omega
      have c2 : 0 ≤ y + (j : Int) ∧ y + (j : Int) < (BOARD_WIDTH : Int) := by omega
      have e1 : (x + (i : Int)).toNat = x.toNat + i := by omega
      have e2 : (y + (j : Int)).toNat = y.toNat + j := by omega
      simp [c1, c2, e1, e2]
    by_cases hp : pcell p i j = 1
    · by_cases hv : getCell g (x.toNat + i) (y.toNat + j) = 1
      · simp [scanRow, hp, hcell, hv]
      · simp only [scanRow, hp, beq_self_eq_true, if_true, hcell]
        rw [if_neg (by simpa using hv)]
        rw [ih (fun a ha => hmem a (by simp [ha]))]
        simp [hp, hv]
    · simp only [scanRow, if_neg (by simpa using hp)]
      rw [ih (fun a ha => hmem a (by simp [ha]))]
      simp [hp]

/-- The outer can_place scan over integer coordinates computes the same
boolean as the natural-coordinate nested scan when every access is in
range. -/
theorem scanRows_eq_ok (g : Grid) (p : Piece) (x y : Int)
    (hx0 : 0 ≤ x) (hy0 : 0 ≤ y) (hxH : x + (pieceH p : Int) ≤ (BOARD_HEIGHT : Int))
    (hyW : y + (pieceW p : Int) ≤ (BOARD_WIDTH : Int)) :
    ∀ rows : List Nat, (∀ i ∈ rows, i < pieceH p) →
      scanRows g p x y rows = Except.ok (rows.all (fun i =>
        (List.range (pieceW p)).all (fun j =>
          if pcell p i j == 1 then !(getCell g (x.toNat + i) (y.toNat + j) == 1) else true))) := by
  intro rows
  induction rows with
  | nil => intro _; rfl
  | cons i rows ih =>
    intro hmem
    have hi : i < pieceH p := hmem i (by simp)
    have hrow := scanRow_eq_ok g p x y i hx0 hy0 (by omega) hyW
      (List.range (pieceW p)) (fun a ha => List.mem_range.mp ha)
    have hrec := ih (fun a ha => hmem a (by simp [ha]))
    rw [List.all_cons]
    cases hb : (List.range (pieceW p)).all (fun j =>
        if pcell p i j == 1 then !(getCell g (x.toNat + i) (y.toNat + j) == 1) else true) with
    | false =>
      rw [hb] at hrow
      simp only [scanRows, hrow, Bool.false_and]
    | true =>
      rw [hb] at hrow
      simp only [scanRows, hrow, hrec, Bool.true_and]

/-- For nonnegative coordinates the integer can_place embedding returns
exactly the boolean of the natural-coordinate embedding, without error. -/
theorem canPlaceZ_eq (g : Grid) (p : Piece) (x y : Int) (hx : 0 ≤ x) (hy : 0 ≤ y) :
    canPlaceZ g p x y = Except.ok (can_place g p x.toNat y.toNat) := by
  unfold canPlaceZ can_place
  by_cases h1 : y + (pieceW p : Int) > (BOARD_WIDTH : Int)
  · have h1n : y.toNat + pieceW p > BOARD_WIDTH := by omega
    rw [if_pos (Or.inr h1), if_pos h1n]
  · have h1n : ¬(y.toNat + pieceW p > BOARD_WIDTH) := by omega
    rw [if_neg (by omega), if_neg h1n]
    by_cases h2 : x + (pieceH p : Int) > (BOARD_HEIGHT : Int)
    · have h2n : x.toNat + pieceH p > BOARD_HEIGHT := by omega
      rw [if_pos h2, if_pos h2n]
    · have h2n : ¬(x.toNat + pieceH p > BOARD_HEIGHT) := by omega
      rw [if_neg h2, if_neg h2n]
      exact scanRows_eq_ok g p x y hx hy (by omega) (by omega)
        (List.range (pieceH p)) (fun a ha => List.mem_range.mp ha)

/-- C3 amended: for every grid, every piece, every x >= 0 and every
integer y, can_place returns True exactly when the piece bounding box
lies inside [0, W) x [0, H) and no occupied piece cell overlaps an
occupied board cell; in every other case — including y < 0 — it returns
False, and it never raises; it is a pure function of the grid (the
embedding takes the grid as a read-only value), so it never mutates it.
For x < 0 no bound check exists: numpy wraparound applies (see the
counterexample), so the original claim's x < 0 case is dropped. -/
theorem can_place_spec (g : Grid) (p : Piece) (x y : Int) (hx : 0 ≤ x) :
    (canPlaceZ g p x y = Except.ok true ↔
      (0 ≤ y ∧ y + (pieceW p : Int) ≤ (BOARD_WIDTH : Int) ∧
       x + (pieceH p : Int) ≤ (BOARD_HEIGHT : Int) ∧
       ∀ i < pieceH p, ∀ j < pieceW p, pcell p i j = 1 →
         getCell g (x.toNat + i) (y.toNat + j) ≠ 1)) ∧
    (canPlaceZ g p x y = Except.ok true ∨ canPlaceZ g p x y = Except.ok false) := by
  by_cases hy : 0 ≤ y
  · rw [canPlaceZ_eq g p x y hx hy]
    constructor
    · simp only [Except.ok.injEq]
      rw [can_place_eq_true_iff]
      constructor
      · rintro ⟨a, b, c⟩
        exact ⟨hy, by omega, by omega, c⟩
      · rintro ⟨-, a, b, c⟩
        exact ⟨by omega, by omega, c⟩
    · cases can_place g p x.toNat y.toNat
      · right; rfl
      · left; rfl
  · have h1 : y < 0 := by omega
    have hfalse : canPlaceZ g p x y = Except.ok false := by
      unfold canPlaceZ
      rw [if_pos (Or.inl h1)]
    rw [hfalse]
    constructor
    · constructor
      · intro h; exact absurd h (by simp)
      · rintro ⟨h0, -⟩; omega
    · right; rfl

/-- Witness for can_place_spec: the O-piece fits at (3, 4) on the empty
board. -/
theorem can_place_spec_witness :
    canPlaceZ initState.board pieceO 3 4 = Except.ok true :=
  ((can_place_spec initState.board pieceO 3 4 (by decide)).1).mpr (by decide)

/-- Reading a cell after a single cell write: the written position holds
the new value, all others are untouched. -/
theorem getCell_setCell (g : Grid) (a b v r c : Nat)
    (ha : a < g.length) (hb : b < (g.getD a []).length) :
    getCell (setCell g a b v) r c = if a = r ∧ b = c then v else getCell g r c := by
  unfold getCell setCell
  simp only [List.getD_eq_getElem?_getD] at hb ⊢
  by_cases har : a = r
  · subst har
    rw [List.getElem?_set_eq_of_lt _ ha, Option.getD_some]
    by_cases hbc : b = c
    · subst hbc
      rw [List.getElem?_set_eq_of_lt _ hb, Option.getD_some]
      simp
    · rw [List.getElem?_set_ne hbc]
      simp [hbc]
  · rw [List.getElem?_set_ne har]
    simp [har]

/-- A single cell write changes neither the number of rows nor any row
length. -/
theorem setCell_dims (g : Grid) (a b v : Nat) :
    (setCell g a b v).length = g.length ∧
    ∀ r, ((setCell g a b v).getD r []).length = (g.getD r []).length := by
  refine ⟨by simp [setCell], ?_⟩
  intro r
  unfold setCell
  simp only [List.getD_eq_getElem?_getD]
  by_cases har : a = r
  · subst har
    by_cases ha : a < g.length
    · rw [List.getElem?_set_eq_of_lt _ ha, Option.getD_some, List.length_set]
    · rw [List.set_eq_of_length_le (by omega)]
  · rw [List.getElem?_set_ne har]

/-- The row-writing loop of place_piece preserves the grid dimensions. -/
theorem foldRow_dims (p : Piece) (x y i : Nat) :
    ∀ (js : List Nat) (g : Grid),
      ((js.foldl (fun g2 j => if pcell p i j == 1 then setCell g2 (x + i) (y + j) 1 else g2) g).length
        = g.length) ∧
      ∀ r, (((js.foldl (fun g2 j => if pcell p i j == 1 then setCell g2 (x + i) (y + j) 1 else g2) g).getD r []).length
        = (g.getD r []).length) := by
  intro js
  induction js with
  | nil => intro g; exact ⟨rfl, fun r => rfl⟩
  | cons j js ih =>
    intro g
    rw [List.foldl_cons]
    by_cases hp : pcell p i j == 1
    · rw [if_pos hp]
      obtain ⟨L1, L2⟩ := ih (setCell g (x + i) (y + j) 1)
      obtain ⟨S1, S2⟩ := setCell_dims g (x + i) (y + j) 1
      exact ⟨L1.trans S1, fun r => (L2 r).trans (S2 r)⟩
    · rw [if_neg hp]
      exact ih g

/-- Cell contents after the row-writing loop: positions covered by an
occupied piece cell of row i hold 1, everything else is untouched. -/
theorem foldRow_cell (p : Piece) (x y i r c : Nat) :
    ∀ (js : List Nat) (g : Grid), x + i < g.length →
      (∀ j ∈ js, y + j < (g.getD (x + i) []).length) →
      getCell (js.foldl (fun g2 j => if pcell p i j == 1 then setCell g2 (x + i) (y + j) 1 else g2) g) r c =
        if js.any (fun j => pcell p i j == 1 && r == x + i && c == y + j) then 1
        else getCell g r c := by
  intro js
  induction js with
  | nil => intro g _ _; simp
  | cons j js ih =>
    intro g hxr hjs
    rw [List.foldl_cons, List.any_cons]
    by_cases hp : pcell p i j == 1
    · rw [if_pos hp]
      obtain ⟨S1, S2⟩ := setCell_dims g (x + i) (y + j) 1
      rw [ih (setCell g (x + i) (y + j) 1) (by rw [S1]; exact hxr)
        (fun a ha => by rw [S2]; exact hjs a (by simp [ha]))]
      rw [getCell_setCell g (x + i) (y + j) 1 r c hxr (hjs j (by simp))]
      by_cases h2 : js.any (fun j => pcell p i j == 1 && r == x + i && c == y + j) = true
      · simp [h2]
      · by_cases h3 : x + i = r ∧ y + j = c
        · obtain ⟨e1, e2⟩ := h3
          subst e1; subst e2
          simp [h2, hp]
        · have h4 : ¬(r = x + i ∧ c = y + j) := fun h5 => h3 ⟨h5.1.symm, h5.2.symm⟩
          simp only [Bool.not_eq_true] at h2
          simp [h2, hp, h3, h4]
    · rw [if_neg hp]
      rw [ih g hxr (fun a ha => hjs a (by simp [ha]))]
      simp only [Bool.not_eq_true] at hp
      simp [hp]

/-- Cell contents after the full write loop of place_piece over any list
of piece rows. -/
theorem writeRows_cell (p : Piece) (x y r c : Nat) :
    ∀ (rows : List Nat) (g : Grid), g.length = BOARD_HEIGHT →
      (∀ rr, rr < BOARD_HEIGHT → (g.getD rr []).length = BOARD_WIDTH) →
      (∀ i ∈ rows, i < pieceH p) → x + pieceH p ≤ BOARD_HEIGHT → y + pieceW p ≤ BOARD_WIDTH →
      getCell (rows.foldl (fun g1 i =>
          (List.range (pieceW p)).foldl (fun g2 j =>
            if pcell p i j == 1 then setCell g2 (x + i) (y + j) 1 else g2) g1) g) r c =
        if rows.any (fun i => (List.range (pieceW p)).any (fun j =>
            pcell p i j == 1 && r == x + i && c == y + j)) then 1
        else getCell g r c := by
  intro rows
  induction rows with
  | nil => intro g _ _ _ _ _; simp
  | cons i rows ih =>
    intro g hlen hrow hmem hx hy
    have hi : i < pieceH p := hmem i (by simp)
    have hxi : x + i < g.length := by omega
    have hwid : (g.getD (x + i) []).length = BOARD_WIDTH := hrow (x + i) (by omega)
    obtain ⟨D1, D2⟩ := foldRow_dims p x y i (List.range (pieceW p)) g
    rw [List.foldl_cons, List.any_cons]
    rw [ih _ (D1.trans hlen) (fun rr hrr => (D2 rr).trans (hrow rr hrr))
      (fun a ha => hmem a (by simp [ha])) hx hy]
    rw [foldRow_cell p x y i r c (List.range (pieceW p)) g hxi
      (fun j hj => by rw [hwid]; have := List.mem_range.mp hj; omega)]
    by_cases h2 : rows.any (fun i => (List.range (pieceW p)).any (fun j =>
        pcell p i j == 1 && r == x + i && c == y + j)) = true
    · simp [h2]
    · simp only [Bool.not_eq_true] at h2
      by_cases h3 : (List.range (pieceW p)).any (fun j =>
          pcell p i j == 1 && r == x + i && c == y + j) = true
      · simp [h2, h3]
      · simp only [Bool.not_eq_true] at h3
        simp [h2, h3]

/-- C7: place_piece re-validates with can_place; on failure it returns
false and changes nothing (so repeated invalid calls keep returning false
without mutation); on success it returns true, leaves every counter
unchanged, and sets exactly the cells covered by occupied piece cells to
1, leaving all other cells as they were. -/
theorem place_piece_spec (p : Piece) (x y : Nat) (s : SolverState) (hg : wfGrid s.board) :
    (can_place s.board p x y = false → place_piece p x y s = (false, s)) ∧
    (can_place s.board p x y = true →
      (place_piece p x y s).1 = true ∧
      (place_piece p x y s).2.score = s.score ∧
      (place_piece p x y s).2.lines_cleared = s.lines_cleared ∧
      (place_piece p x y s).2.level = s.level ∧
      ∀ r c : Nat, getCell (place_piece p x y s).2.board r c =
        if covered p x y r c then 1 else getCell s.board r c) := by
  constructor
  · intro h
    unfold place_piece placeGrid
    rw [h, if_neg (by simp)]
  · intro h
    have hbounds := (can_place_eq_true_iff s.board p x y).mp h
    refine ⟨by simp [place_piece, h], rfl, rfl, rfl, ?_⟩
    intro r c
    have hboard : (place_piece p x y s).2.board = writeCells s.board p x y := by
      simp [place_piece, placeGrid, h]
    rw [hboard]
    unfold writeCells covered
    have hrowlen : ∀ rr, rr < BOARD_HEIGHT → ((s.board.getD rr []).length = BOARD_WIDTH) := by
      intro rr hrr
      have hlt : rr < s.board.length := by rw [hg.1]; exact hrr
      have hmem : s.board.getD rr [] ∈ s.board := by
        rw [List.getD_eq_getElem?_getD, List.getElem?_eq_getElem hlt, Option.getD_some]
        exact List.getElem_mem hlt
      exact hg.2 _ hmem
    exact writeRows_cell p x y r c (List.range (pieceH p)) s.board hg.1 hrowlen
      (fun a ha => List.mem_range.mp ha) (by omega) (by omega)

/-- Witness for place_piece_spec: the O-piece placed at (0, 0) on the
empty board covers exactly cells (0,0), (0,1), (1,0), (1,1). -/
theorem place_piece_spec_witness :
    (place_piece pieceO 0 0 initState).1 = true ∧
    getCell (place_piece pieceO 0 0 initState).2.board 0 0 = 1 ∧
    getCell (place_piece pieceO 0 0 initState).2.board 5 5 = 0 := by
  have h := (place_piece_spec pieceO 0 0 initState (by decide)).2 (by decide)
  refine ⟨h.1, ?_, ?_⟩
  · rw [h.2.2.2.2 0 0]; decide
  · rw [h.2.2.2.2 5 5]; decide

/-- find? over an initial range returns the least index satisfying the
predicate. -/
theorem find?_range_least {p : Nat → Bool} :
    ∀ {n m : Nat}, (List.range n).find? p = some m →
      p m = true ∧ m < n ∧ ∀ k < m, p k = false := by
  intro n
  induction n with
  | zero => intro m h; simp at h
  | succ n ih =>
    intro m h
    rw [List.range_succ, List.find?_append] at h
    cases h1 : (List.range n).find? p with
    | some m' =>
      rw [h1] at h
      simp only [Option.or_some] at h
      obtain ⟨hp, hm, hleast⟩ := ih h1
      cases h
      exact ⟨hp, by omega, hleast⟩
    | none =>
      rw [h1] at h
      simp only [Option.none_or] at h
      have h2 := List.find?_eq_none.mp h1
      by_cases hpn : p n
      · rw [List.find?_singleton, if_pos hpn] at h
        cases h
        refine ⟨hpn, by omega, ?_⟩
        intro k hk
        have := h2 k (List.mem_range.mpr hk)
        simpa using this
      · rw [List.find?_singleton, if_neg hpn] at h
        simp at h

/-- The hole count of the source's per-column loop equals the spec's
strictly-below-the-top characterization. -/
theorem colHoles_eq_spec (g : Grid) (c : Nat) : colHoles g c = specColHoles g c := by
  unfold colHoles specColHoles topOcc
  rw [← List.countP_eq_length_filter]
  cases hfind : (List.range BOARD_HEIGHT).find? (fun r => getCell g r c == 1) with
  | none =>
    have h2 := List.find?_eq_none.mp hfind
    symm
    rw [List.countP_eq_zero]
    intro r hr hcontra
    rw [Bool.and_eq_true, List.any_eq_true] at hcontra
    obtain ⟨-, r2, hr2, hocc⟩ := hcontra
    have hr2r : r2 < r := List.mem_range.mp hr2
    have hrH : r < BOARD_HEIGHT := List.mem_range.mp hr
    exact h2 r2 (List.mem_range.mpr (by omega)) hocc
  | some r0 =>
    obtain ⟨hp0, hr0H, hleast⟩ := find?_range_least hfind
    show (List.range' (r0 + 1) (BOARD_HEIGHT - (r0 + 1))).countP (fun row => getCell g row c == 0) =
      (List.range BOARD_HEIGHT).countP (fun r =>
        getCell g r c == 0 && (List.range r).any (fun r2 => getCell g r2 c == 1))
    have hsplit : BOARD_HEIGHT - (r0 + 1) + (r0 + 1) = BOARD_HEIGHT := by omega
    have hdecomp := List.range'_append_1 0 (r0 + 1) (BOARD_HEIGHT - (r0 + 1))
    rw [Nat.zero_add, hsplit] at hdecomp
    rw [List.range_eq_range', ← hdecomp, List.countP_append]
    have hzero : (List.range' 0 (r0 + 1)).countP (fun r =>
        getCell g r c == 0 && (List.range r).any (fun r2 => getCell g r2 c == 1)) = 0 := by
      rw [List.countP_eq_zero]
      intro r hr hcontra
      have hrb : r ≤ r0 := by
        have := List.mem_range'_1.mp hr
        omega
      rw [Bool.and_eq_true, List.any_eq_true] at hcontra
      obtain ⟨hc0, r2, hr2, hocc⟩ := hcontra
      have hr2r : r2 < r := List.mem_range.mp hr2
      by_cases hr0 : r = r0
      · subst hr0
        rw [beq_iff_eq] at hp0 hc0
        omega
      · have hrlt : r < r0 := by omega
        rw [hleast r2 (by omega)] at hocc
        exact absurd hocc (by simp)
    rw [hzero, Nat.zero_add]
    apply List.countP_congr
    intro r hr
    have hrb := List.mem_range'_1.mp hr
    have hany : (List.range r).any (fun r2 => getCell g r2 c == 1) = true := by
      rw [List.any_eq_true]
      exact ⟨r0, List.mem_range.mpr (by omega), hp0⟩
    simp [hany]

/-- C4: evaluate_board coincides with the reference evaluator of the
spec — full-row count times 500, unclamped (4 - f) times -50, holes
(empty cells strictly below a column top) times -50, bumpiness times -10
and aggregate height times -1 — and by its very signature it reads only
the grid, never the score, lines_cleared or level counters. -/
theorem evaluate_board_eq_spec (g : Grid) : evaluate_board g = specEvaluate g := by
  unfold evaluate_board specEvaluate
  simp only [colHoles_eq_spec]

/-- The descending compaction loop of clear_lines writes the non-full
rows, in order, into the slots ending at index ni of the fresh board. -/
theorem compact_foldr :
    ∀ (g : List (List Nat)) (nb : Grid) (ni : Nat),
      (g.filter (fun row => !(rowFull row))).length ≤ ni + 1 → ni < nb.length →
      g.foldr compactStep (nb, ni) =
        (nb.take (ni + 1 - (g.filter (fun row => !(rowFull row))).length) ++
          (g.filter (fun row => !(rowFull row)) ++ nb.drop (ni + 1)),
         ni - (g.filter (fun row => !(rowFull row))).length) := by
  intro g
  induction g with
  | nil =>
    intro nb ni h1 h2
    simp [List.take_append_drop]
  | cons r g ih =>
    intro nb ni h1 h2
    rw [List.foldr_cons]
    by_cases hfull : rowFull r
    · rw [List.filter_cons_of_neg (by simp [hfull])] at h1 ⊢
      rw [ih nb ni h1 h2]
      unfold compactStep
      rw [if_pos hfull]
    · rw [List.filter_cons_of_pos (by simp [hfull])] at h1 ⊢
      have hk1 : (g.filter (fun row => !(rowFull row))).length + 1 ≤ ni + 1 := by
        simpa using h1
      have hk' : (g.filter (fun row => !(rowFull row))).length ≤ ni + 1 := by omega
      have hkni : (g.filter (fun row => !(rowFull row))).length ≤ ni := by omega
      rw [ih nb ni hk' h2]
      unfold compactStep
      rw [if_neg hfull]
      have hlt : ni - (g.filter (fun row => !(rowFull row))).length < nb.length := by omega
      have htake : nb.take (ni + 1 - (g.filter (fun row => !(rowFull row))).length) =
          nb.take (ni - (g.filter (fun row => !(rowFull row))).length) ++
            [nb.get ⟨ni - (g.filter (fun row => !(rowFull row))).length, hlt⟩] := by
        rw [show ni + 1 - (g.filter (fun row => !(rowFull row))).length =
          (ni - (g.filter (fun row => !(rowFull row))).length) + 1 by omega]
        rw [List.take_succ, List.getElem?_eq_getElem hlt]
        rfl
      have hlentake : (nb.take (ni - (g.filter (fun row => !(rowFull row))).length)).length =
          ni - (g.filter (fun row => !(rowFull row))).length := by
        rw [List.length_take]
        omega
      rw [htake]
      rw [List.append_assoc, List.set_append_right _ _ (by omega), Prod.mk.injEq]
      constructor
      · rw [hlentake]
        rw [Nat.sub_self]
        rw [show ni + 1 - ((r :: g.filter (fun row => !(rowFull row))).length) =
          ni - (g.filter (fun row => !(rowFull row))).length by
            simp only [List.length_cons]; omega]
        simp
      · simp only [List.length_cons]
        omega

/-- For a well-formed board with n >= 1 full rows, the compaction loop
produces exactly n empty rows on top of the non-full rows in their
original order. -/
theorem clearCompact_eq (g : Grid) (hg : wfGrid g) (hn : 1 ≤ g.countP rowFull) :
    clearCompact g = List.replicate (g.countP rowFull) emptyRow ++
      g.filter (fun row => !(rowFull row)) := by
  have hsplit := List.length_eq_countP_add_countP (p := rowFull) (l := g)
  have hconv : g.countP (fun a => decide ¬(rowFull a = true)) =
      g.countP (fun row => !(rowFull row)) := by
    apply List.countP_congr
    intro a _
    simp
  rw [hconv] at hsplit
  have hkeep : (g.filter (fun row => !(rowFull row))).length =
      g.countP (fun row => !(rowFull row)) := by
    rw [List.countP_eq_length_filter]
  have hlen : g.length = BOARD_HEIGHT := hg.1
  have hk : (g.filter (fun row => !(rowFull row))).length + g.countP rowFull = BOARD_HEIGHT := by
    rw [hkeep]
    omega
  unfold clearCompact
  rw [compact_foldr g emptyBoard (BOARD_HEIGHT - 1) (by omega)
    (by simp [emptyBoard, BOARD_HEIGHT])]
  unfold emptyBoard
  rw [List.take_replicate, List.drop_replicate]
  rw [show BOARD_HEIGHT - 1 + 1 = BOARD_HEIGHT by omega]
  rw [show min (BOARD_HEIGHT - (g.filter (fun row => !(rowFull row))).length) BOARD_HEIGHT =
    BOARD_HEIGHT - (g.filter (fun row => !(rowFull row))).length by omega]
  rw [Nat.sub_self, List.replicate_zero, List.append_nil]
  rw [show BOARD_HEIGHT - (g.filter (fun row => !(rowFull row))).length =
    g.countP rowFull by omega]

/-- Splitting a mapped sum over a boolean partition of the list. -/
theorem sum_map_split (f : List Nat → Nat) (p : List Nat → Bool) :
    ∀ l : List (List Nat),
      ((l.filter p).map f).sum + ((l.filter (fun a => !(p a))).map f).sum = (l.map f).sum := by
  intro l
  induction l with
  | nil => simp
  | cons a l ih =>
    by_cases h : p a <;>
      simp only [List.filter_cons, h, Bool.not_true, Bool.not_false, if_true, if_false,
        Bool.false_eq_true, Bool.true_eq_false, List.map_cons, List.sum_cons] <;>
      omega

/-- A mapped sum where the function is constant on the list. -/
theorem sum_map_const_on (w : Nat) (f : List Nat → Nat) :
    ∀ l : List (List Nat), (∀ a ∈ l, f a = w) → (l.map f).sum = l.length * w := by
  intro l
  induction l with
  | nil => intro _; simp
  | cons a l ih =>
    intro h
    rw [List.map_cons, List.sum_cons, h a (by simp), ih (fun b hb => h b (by simp [hb])),
      List.length_cons, Nat.succ_mul]
    omega

/-- C5: clear_lines returns the number n of full rows; when n = 0 nothing
changes at all; when n >= 1 the new board consists of exactly n empty
rows on top of the non-full rows in their original relative order, it is
again a well-formed BOARD_HEIGHT x BOARD_WIDTH grid, and the total
occupied-cell count drops by exactly n * BOARD_WIDTH. -/
theorem clear_lines_spec (s : SolverState) (hg : wfGrid s.board) :
    ((clear_lines s).1 = s.board.countP rowFull) ∧
    (s.board.countP rowFull = 0 → clear_lines s = (0, s)) ∧
    (1 ≤ s.board.countP rowFull →
      ((clear_lines s).2.board = List.replicate (s.board.countP rowFull) emptyRow ++
          s.board.filter (fun row => !(rowFull row)) ∧
       wfGrid (clear_lines s).2.board ∧
       countOnes (clear_lines s).2.board + s.board.countP rowFull * BOARD_WIDTH =
         countOnes s.board)) := by
  refine ⟨?_, ?_, ?_⟩
  · unfold clear_lines
    by_cases h : s.board.countP rowFull > 0 <;> simp [h]
  · intro h0
    simp [clear_lines, h0]
  · intro h1
    have hboard : (clear_lines s).2.board = clearCompact s.board := by
      unfold clear_lines
      rw [if_pos (by omega)]
    rw [hboard, clearCompact_eq s.board hg h1]
    have hkeep : (s.board.filter (fun row => !(rowFull row))).length =
        s.board.countP (fun row => !(rowFull row)) := by
      rw [List.countP_eq_length_filter]
    have hsplit := List.length_eq_countP_add_countP (p := rowFull) (l := s.board)
    have hconv : s.board.countP (fun a => decide ¬(rowFull a = true)) =
        s.board.countP (fun row => !(rowFull row)) := by
      apply List.countP_congr
      intro a _
      simp
    rw [hconv] at hsplit
    have hlen : s.board.length = BOARD_HEIGHT := hg.1
    refine ⟨rfl, ⟨?_, ?_⟩, ?_⟩
    · rw [List.length_append, List.length_replicate]
      omega
    · intro row hrow
      rcases List.mem_append.mp hrow with hmem | hmem
      · rw [List.eq_of_mem_replicate hmem]
        simp [emptyRow]
      · exact hg.2 row (List.mem_of_mem_filter hmem)
    · unfold countOnes
      rw [List.map_append, List.sum_append]
      have hz : ((List.replicate (s.board.countP rowFull) emptyRow).map
          (fun row => row.countP (fun c => c == 1))).sum = 0 := by
        rw [List.map_replicate]
        simp [emptyRow, List.countP_replicate]
      rw [hz, Nat.zero_add]
      have hsplitsum := sum_map_split (fun row => row.countP (fun c => c == 1)) rowFull s.board
      have hfullsum : ((s.board.filter rowFull).map
          (fun row => row.countP (fun c => c == 1))).sum =
          (s.board.filter rowFull).length * BOARD_WIDTH := by
        apply sum_map_const_on
        intro row hrow
        have hf : rowFull row := List.of_mem_filter hrow
        have hW : row.length = BOARD_WIDTH := hg.2 row (List.mem_of_mem_filter hrow)
        rw [← hW]
        rw [List.countP_eq_length]
        intro a ha
        unfold rowFull at hf
        rw [List.all_eq_true] at hf
        exact hf a ha
      have hfulllen : (s.board.filter rowFull).length = s.board.countP rowFull := by
        rw [List.countP_eq_length_filter]
      rw [hfulllen] at hfullsum
      rw [hfullsum] at hsplitsum
      omega

/-- C6: when n >= 1 rows clear, lines_cleared grows by exactly n, level is
recomputed as max(1, lines_cleared / 10 + 1) from the updated counter,
and score grows by base_points(n) times the new level for n in 1..4
(100/300/500/800) and by 1000 * level * n / 4 (truncating division) for
n > 4. -/
theorem clear_lines_counters (s : SolverState) (h1 : 1 ≤ s.board.countP rowFull) :
    (clear_lines s).2.lines_cleared = s.lines_cleared + s.board.countP rowFull ∧
    (clear_lines s).2.level =
      max 1 ((s.lines_cleared + s.board.countP rowFull) / 10 + 1) ∧
    (s.board.countP rowFull = 1 →
      (clear_lines s).2.score = s.score + 100 * (clear_lines s).2.level) ∧
    (s.board.countP rowFull = 2 →
      (clear_lines s).2.score = s.score + 300 * (clear_lines s).2.level) ∧
    (s.board.countP rowFull = 3 →
      (clear_lines s).2.score = s.score + 500 * (clear_lines s).2.level) ∧
    (s.board.countP rowFull = 4 →
      (clear_lines s).2.score = s.score + 800 * (clear_lines s).2.level) ∧
    (4 < s.board.countP rowFull →
      (clear_lines s).2.score =
        s.score + 1000 * (clear_lines s).2.level * s.board.countP rowFull / 4) := by
  have hstate : clear_lines s = (s.board.countP rowFull,
      { board := clearCompact s.board,
        score := s.score + (if 1 ≤ s.board.countP rowFull ∧ s.board.countP rowFull ≤ 4
          then LINE_CLEAR_POINTS (s.board.countP rowFull) *
            (max 1 ((s.lines_cleared + s.board.countP rowFull) / 10 + 1))
          else 1000 * (max 1 ((s.lines_cleared + s.board.countP rowFull) / 10 + 1)) *
            s.board.countP rowFull / 4),
        lines_cleared := s.lines_cleared + s.board.countP rowFull,
        level := max 1 ((s.lines_cleared + s.board.countP rowFull) / 10 + 1) }) := by
    unfold clear_lines
    rw [if_pos (by omega)]
  rw [hstate]
  refine ⟨rfl, rfl, ?_, ?_, ?_, ?_, ?_⟩
  all_goals intro h
  · simp only [h]
    simp [LINE_CLEAR_POINTS]
  · simp only [h]
    simp [LINE_CLEAR_POINTS]
  · simp only [h]
    simp [LINE_CLEAR_POINTS]
  · simp only [h]
    simp [LINE_CLEAR_POINTS]
  · simp only
    rw [if_neg (by omega)]

/-- Witness for clear_lines_spec: a board whose bottom row is full clears
to the all-empty board, reporting one cleared line. -/
theorem clear_lines_spec_witness :
    (clear_lines ⟨List.replicate 19 emptyRow ++ [List.replicate 10 1], 0, 0, 1⟩).2.board =
      List.replicate 20 (List.replicate 10 0) ∧
    (clear_lines ⟨List.replicate 19 emptyRow ++ [List.replicate 10 1], 0, 0, 1⟩).1 = 1 := by
  have h := clear_lines_spec ⟨List.replicate 19 emptyRow ++ [List.replicate 10 1], 0, 0, 1⟩
    (by decide)
  refine ⟨?_, ?_⟩
  · rw [(h.2.2 (by decide)).1]
    decide
  · rw [h.1]
    decide

/-- Witness for clear_lines_counters: clearing the single full bottom row
at level 1 awards 100 points on top of the stored 50 and advances
lines_cleared from 3 to 4. -/
theorem clear_lines_counters_witness :
    (clear_lines ⟨List.replicate 19 emptyRow ++ [List.replicate 10 1], 50, 3, 1⟩).2.score = 150 ∧
    (clear_lines ⟨List.replicate 19 emptyRow ++ [List.replicate 10 1], 50, 3, 1⟩).2.lines_cleared = 4 ∧
    (clear_lines ⟨List.replicate 19 emptyRow ++ [List.replicate 10 1], 50, 3, 1⟩).2.level = 1 := by
  have h := clear_lines_counters ⟨List.replicate 19 emptyRow ++ [List.replicate 10 1], 50, 3, 1⟩
    (by decide)
  refine ⟨?_, ?_, ?_⟩
  · rw [h.2.2.1 (by decide), h.2.1]
    decide
  · rw [h.1]
    decide
  · rw [h.2.1]
    decide

/-- The best_move loop body restores the backed-up board, so each
candidate step returns the incoming solver state unchanged together with
the purely computed accumulator update. -/
theorem bmBody_state (acc : Option (Nat × Nat × Nat) × Option Int) (st : SolverState)
    (r_idx : Nat) (p : Piece) (y : Nat) :
    bmBody acc st r_idx p y = (pureBody st.board acc r_idx p y, st) := by
  unfold bmBody pureBody place_piece
  by_cases h : can_place st.board p 0 y <;> simp [h]

/-- A fold whose step leaves the threaded state fixed splits into a pure
fold paired with the unchanged state. -/
theorem foldl_pure_state {α β : Type} (F : (α × SolverState) → β → (α × SolverState))
    (G : α → β → α) (s : SolverState) (hF : ∀ a b, F (a, s) b = (G a b, s)) :
    ∀ (l : List β) (a : α), l.foldl F (a, s) = (l.foldl G a, s) := by
  intro l
  induction l with
  | nil => intro a; rfl
  | cons b l ih =>
    intro a
    rw [List.foldl_cons, hF, List.foldl_cons, ih]

/-- best_move leaves the solver state untouched and computes its answer
as a pure nested fold over the rotation/column grid. -/
theorem best_move_pure (s : SolverState) (rots : List Piece) :
    best_move s rots = (rots.enum.foldl (fun acc rp =>
      (List.range (BOARD_WIDTH + 1 - pieceW rp.2)).foldl (fun acc2 y =>
        pureBody s.board acc2 rp.1 rp.2 y) acc) (none, none), s) := by
  unfold best_move
  apply foldl_pure_state
  intro a rp
  apply foldl_pure_state
  intro a2 y
  exact bmBody_state a2 s rp.1 rp.2 y

/-- C8: after best_move returns, the board and the score, lines_cleared
and level counters all equal their values before the call: every
speculative placement of the search is fully undone. -/
theorem best_move_preserves_state (s : SolverState) (rots : List Piece) :
    (best_move s rots).2 = s := by
  rw [best_move_pure]

/-- The gravity resting row characterized by specRest: the successor row
is blocked, every smaller row is reachable, and it is at most
BOARD_HEIGHT. -/
theorem specRest_spec (g : Grid) (p : Piece) (y : Nat) :
    can_place g p (specRest g p y + 1) y = false ∧
    (∀ k < specRest g p y, can_place g p (k + 1) y = true) ∧
    specRest g p y ≤ BOARD_HEIGHT := by
  have hHfail : can_place g p (BOARD_HEIGHT + 1) y = false := by
    have h := can_place_eq_true_iff g p (BOARD_HEIGHT + 1) y
    cases hb : can_place g p (BOARD_HEIGHT + 1) y
    · rfl
    · rw [hb] at h
      obtain ⟨-, h2, -⟩ := h.mp rfl
      omega
  have hsome : ∃ m, (List.range (BOARD_HEIGHT + 1)).find?
      (fun x => ! can_place g p (x + 1) y) = some m := by
    cases hf : (List.range (BOARD_HEIGHT + 1)).find? (fun x => ! can_place g p (x + 1) y) with
    | some m => exact ⟨m, rfl⟩
    | none =>
      rw [List.find?_eq_none] at hf
      have := hf BOARD_HEIGHT (List.mem_range.mpr (by omega))
      simp [hHfail] at this
  obtain ⟨m, hm⟩ := hsome
  obtain ⟨hpm, hmlt, hleast⟩ := find?_range_least hm
  have hrest : specRest g p y = m := by
    unfold specRest
    rw [hm]
    rfl
  rw [hrest]
  refine ⟨?_, ?_, by omega⟩
  · simpa using hpm
  · intro k hk
    have := hleast k hk
    simpa using this

/-- The fuelled gravity loop reaches the first blocked row whenever the
fuel covers the distance. -/
theorem dropGo_reaches (g : Grid) (p : Piece) (y : Nat) :
    ∀ (fuel x x0 : Nat), x ≤ x0 → x0 ≤ x + fuel →
      (∀ k, x ≤ k → k < x0 → can_place g p (k + 1) y = true) →
      can_place g p (x0 + 1) y = false →
      dropGo g p y fuel x = x0 := by
  intro fuel
  induction fuel with
  | zero =>
    intro x x0 h1 h2 h3 h4
    simp only [dropGo]
    omega
  | succ fuel ih =>
    intro x x0 h1 h2 h3 h4
    by_cases hc : can_place g p (x + 1) y = true
    · have hxlt : x < x0 := by
        by_contra hcon
        have hx0 : x = x0 := by omega
        rw [hx0, h4] at hc
        simp at hc
      unfold dropGo
      rw [if_pos hc]
      exact ih (x + 1) x0 (by omega) (by omega) (fun k hk1 hk2 => h3 k (by omega) hk2) h4
    · have hle : x0 ≤ x := by
        by_contra hcon
        exact hc (h3 x (Nat.le_refl x) (by omega))
      unfold dropGo
      rw [if_neg hc]
      omega

/-- The source's gravity while-loop computes exactly the spec's resting
row. -/
theorem dropFrom_eq_specRest (g : Grid) (p : Piece) (y : Nat) :
    dropFrom g p y = specRest g p y := by
  obtain ⟨h1, h2, h3⟩ := specRest_spec g p y
  unfold dropFrom
  exact dropGo_reaches g p y BOARD_HEIGHT 0 (specRest g p y) (by omega) (by omega)
    (fun k _ hk2 => h2 k hk2) h1

/-- One pure candidate step rewritten as an optional-candidate match. -/
theorem pureBody_eq_step (g : Grid) (acc : Option (Nat × Nat × Nat) × Option Int)
    (r : Nat) (p : Piece) (y : Nat) :
    pureBody g acc r p y =
      match (if can_place g p 0 y then
          some ((specRest g p y, y, r), evaluate_board (placeGrid g p (specRest g p y) y))
        else none) with
      | some c => if scoreGT c.2 acc.2 then (some c.1, some c.2) else acc
      | none => acc := by
  unfold pureBody
  by_cases h : can_place g p 0 y
  · simp only [h, if_true]
    rw [dropFrom_eq_specRest]
  · simp [h]

/-- Every nonempty score list has a maximal element. -/
theorem exists_max_pair {α : Type} :
    ∀ (l : List (α × Int)), l ≠ [] → ∃ c ∈ l, ∀ d ∈ l, d.2 ≤ c.2 := by
  intro l
  induction l with
  | nil => intro h; exact absurd rfl h
  | cons a l ih =>
    intro _
    by_cases hl : l = []
    · subst hl
      refine ⟨a, by simp, ?_⟩
      intro d hd
      rw [List.mem_singleton.mp hd]
    · obtain ⟨c, hc, hmax⟩ := ih hl
      by_cases hac : a.2 ≤ c.2
      · refine ⟨c, by simp [hc], ?_⟩
        intro d hd
        rcases List.mem_cons.mp hd with h | h
        · rw [h]; exact hac
        · exact hmax d h
      · refine ⟨a, by simp, ?_⟩
        intro d hd
        rcases List.mem_cons.mp hd with h | h
        · rw [h]
        · have := hmax d h
          omega

/-- A nonempty score list has a first maximum. -/
theorem specFirstMax_isSome {α : Type} (l : List (α × Int)) (h : l ≠ []) :
    ∃ c, specFirstMax l = some c := by
  obtain ⟨c, hc, hmax⟩ := exists_max_pair l h
  cases hf : specFirstMax l with
  | some b => exact ⟨b, rfl⟩
  | none =>
    unfold specFirstMax at hf
    rw [List.find?_eq_none] at hf
    have hbest : isBestOf l c = true := decide_eq_true hmax
    exact absurd hbest (by simpa using hf c hc)

/-- The strict-improvement fold of the source computes the first maximum
of the candidate list. -/
theorem foldl_bestStep_spec {α : Type} (l : List (α × Int)) :
    l.foldl bestStep none = specFirstMax l := by
  induction l using List.reverseRecOn with
  | nil => rfl
  | append_singleton l c ih =>
    rw [List.foldl_append, ih, List.foldl_cons, List.foldl_nil]
    cases hb : specFirstMax l with
    | none =>
      have hl : l = [] := by
        by_contra hne
        obtain ⟨d, hd⟩ := specFirstMax_isSome l hne
        rw [hb] at hd
        simp at hd
      subst hl
      rw [show bestStep none c = some c from rfl]
      unfold specFirstMax isBestOf
      simp
    | some b =>
      have hbB : isBestOf l b = true := List.find?_some hb
      have hbprop : ∀ d ∈ l, d.2 ≤ b.2 := of_decide_eq_true hbB
      have hbmem : b ∈ l := List.mem_of_find?_eq_some hb
      rw [show bestStep (some b) c = if c.2 > b.2 then some c else some b from rfl]
      by_cases hgt : c.2 > b.2
      · rw [if_pos hgt]
        unfold specFirstMax
        rw [List.find?_append]
        have hnone : l.find? (isBestOf (l ++ [c])) = none := by
          rw [List.find?_eq_none]
          intro x hx hbest
          have hxall : ∀ d ∈ l ++ [c], d.2 ≤ x.2 := of_decide_eq_true hbest
          have hxc := hxall c (by simp)
          have hxb : x.2 ≤ b.2 := hbprop x hx
          omega
        rw [hnone, Option.none_or, List.find?_singleton, if_pos]
        apply decide_eq_true
        intro d hd
        rcases List.mem_append.mp hd with h | h
        · have := hbprop d h
          omega
        · rw [List.mem_singleton.mp h]
      · rw [if_neg hgt]
        have hcb : c.2 ≤ b.2 := by omega
        unfold specFirstMax
        rw [List.find?_append]
        unfold specFirstMax at hb
        rw [List.find?_eq_some] at hb
        obtain ⟨-, as2, bs2, heq, hprev⟩ := hb
        have hfind : l.find? (isBestOf (l ++ [c])) = some b := by
          rw [List.find?_eq_some]
          refine ⟨?_, as2, bs2, heq, ?_⟩
          · apply decide_eq_true
            intro d hd
            rcases List.mem_append.mp hd with h | h
            · exact hbprop d h
            · rw [List.mem_singleton.mp h]
              exact hcb
          · intro a ha
            have hold := hprev a ha
            have hmemal : a ∈ l := by
              rw [heq]
              exact List.mem_append.mpr (Or.inl ha)
            simp only [Bool.not_eq_true'] at hold ⊢
            cases hnew : isBestOf (l ++ [c]) a
            · rfl
            · have hnewall : ∀ d ∈ l ++ [c], d.2 ≤ a.2 := of_decide_eq_true hnew
              have : isBestOf l a = true := by
                apply decide_eq_true
                intro d hd
                exact hnewall d (List.mem_append.mpr (Or.inl hd))
              rw [hold] at this
              simp at this
        rw [hfind]
        rfl

/-- Folds commute with a conversion of the accumulator when the steps
do. -/
theorem foldl_conv {α γ β : Type} (h : α → γ) (f : α → β → α) (g2 : γ → β → γ)
    (hcomm : ∀ a b, g2 (h a) b = h (f a b)) :
    ∀ (l : List β) (a : α), l.foldl g2 (h a) = h (l.foldl f a) := by
  intro l
  induction l with
  | nil => intro a; rfl
  | cons b l ih =>
    intro a
    rw [List.foldl_cons, hcomm, ih, List.foldl_cons]

/-- Folding over a flatMap equals the nested fold. -/
theorem foldl_flatMap {α β γ : Type} (f : β → List γ) (g2 : α → γ → α) :
    ∀ (l : List β) (a : α),
      (l.flatMap f).foldl g2 a = l.foldl (fun a2 b => (f b).foldl g2 a2) a := by
  intro l
  induction l with
  | nil => intro a; rfl
  | cons b l ih =>
    intro a
    rw [List.flatMap_cons, List.foldl_append, ih, List.foldl_cons]

/-- Folding over a filterMap equals the fold with skipped elements. -/
theorem foldl_filterMap {β γ α : Type} (f : β → Option γ) (g2 : α → γ → α) :
    ∀ (l : List β) (a : α),
      (l.filterMap f).foldl g2 a =
        l.foldl (fun a2 b => match f b with | some c => g2 a2 c | none => a2) a := by
  intro l
  induction l with
  | nil => intro a; rfl
  | cons b l ih =>
    intro a
    cases hfb : f b
    · rw [List.filterMap_cons_none hfb, ih, List.foldl_cons, hfb]
    · rw [List.filterMap_cons_some hfb, List.foldl_cons, ih, List.foldl_cons, hfb]

/-- The source's accumulator pair update agrees with bestStep through the
pair/option conversion. -/
theorem accOfOpt_step {α : Type} (a : Option (α × Int)) (c : α × Int) :
    (if scoreGT c.2 (accOfOpt a).2 then (some c.1, some c.2) else accOfOpt a) =
      accOfOpt (bestStep a c) := by
  cases a with
  | none => simp [scoreGT, bestStep, accOfOpt]
  | some b =>
    by_cases hgt : c.2 > b.2 <;>
      simp [scoreGT, bestStep, accOfOpt, hgt]

set_option maxHeartbeats 1000000 in
/-- C2: for every board state and nonempty rotation list, best_move
equals the reference search: rotations are visited in the given order,
columns y from 0 to BOARD_WIDTH - width, a column whose top-row placement
fails is skipped entirely, each surviving candidate rests at the largest
x reachable by unit gravity steps and is scored by the evaluator on the
speculatively placed board, and the result is the first-encountered
maximum as a ((x, y, r), score) pair — (None, -infinity), embedded as
(none, none), when no candidate is placeable — while the solver state is
returned unchanged. -/
theorem best_move_eq_spec (s : SolverState) (rots : List Piece) (_hne : rots ≠ []) :
    best_move s rots = (accOfOpt (specFirstMax (candList s.board rots)), s) := by
  rw [best_move_pure]
  rw [← foldl_bestStep_spec]
  unfold candList
  rw [foldl_flatMap]
  rw [show ((none, none) : Option (Nat × Nat × Nat) × Option Int) =
    accOfOpt (none : Option ((Nat × Nat × Nat) × Int)) from rfl]
  congr 1
  apply foldl_conv
  intro a rp
  dsimp only
  rw [foldl_filterMap]
  apply foldl_conv
  intro a2 y
  dsimp only
  rw [pureBody_eq_step]
  by_cases hcp : can_place s.board rp.2 0 y
  · simp only [hcp, if_true]
    exact accOfOpt_step a2 ((specRest s.board rp.2 y, y, rp.1),
      evaluate_board (placeGrid s.board rp.2 (specRest s.board rp.2 y) y))
  · simp [hcp]

set_option maxRecDepth 10000 in
/-- Witness for best_move_eq_spec: searching the single 1x1 piece on the
empty board lands it at the bottom of column 0 with score -211, in
agreement with the reference search. -/
theorem best_move_eq_spec_witness :
    best_move initState [[[1]]] = ((some (19, 0, 0), some (-211 : Int)), initState) := by
  have h := best_move_eq_spec initState [[[1]]] (by decide)
  rw [h]
  decide
